import Mathlib

/-!
Verification of the Sudoku search core of `src/main.py` (functions
`find_empty`, `is_safe`, `solve_backtracking`, `count_solutions`,
`generate_full_board`, `make_puzzle`).

A Python board (`List[List[int]]`, 9 rows of 9 digits 0..9) is embedded as a
total function `Fin 9 → Fin 9 → Nat`.  In-place mutation is embedded by
explicit state passing: every function that mutates its board argument
returns the final board next to its ordinary return value.  The ambient
`random` module is embedded as an explicit state type `σ` with a `next`
function producing the list that `random.shuffle` would have produced.
Recursive searches are written with an explicit fuel argument so that all
definitions are structurally recursive and kernel-reducible; fuel `82`
strictly exceeds the number of empty cells of any board, and the lemmas
below show it is never exhausted.
-/

abbrev Board := Fin 9 → Fin 9 → Nat

/-- Assignment `board[r][c] = v`, embedded functionally. -/
def setCell (b : Board) (r c : Fin 9) (v : Nat) : Board :=
  fun r' c' => if r' = r ∧ c' = c then v else b r' c'

/-- Row-major position of a cell: rows 0..8 outer, columns 0..8 inner. -/
def cellIdx (p : Fin 9 × Fin 9) : Nat := p.1.val * 9 + p.2.val

/-- Scan of `find_empty` from flat index `i` (row `i / 9`, column `i % 9`),
which visits the cells exactly in the order of the Python double loop
`for r in range(9): for c in range(9)`.  The first argument is a countdown
bounded below by `81 - i`. -/
def findEmptyAux (b : Board) : Nat → Nat → Option (Fin 9 × Fin 9)
  | 0, _ => none
  | k + 1, i =>
    if h : i < 81 then
      if b ⟨i / 9, by omega⟩ ⟨i % 9, by omega⟩ = 0 then
        some (⟨i / 9, by omega⟩, ⟨i % 9, by omega⟩)
      else findEmptyAux b k (i + 1)
    else none

/-- `find_empty(board)`: first cell holding 0 in row-major order. -/
def find_empty (b : Board) : Option (Fin 9 × Fin 9) := findEmptyAux b 81 0

/-- Cell `(3 * i + j)` used by the box scan of `is_safe`:
row `3 * (row // 3) + i`, column `3 * (col // 3) + j`. -/
def boxCell3 (i : Fin 3) (j : Fin 3) : Fin 9 :=
  ⟨3 * i.val + j.val, by have hi := i.isLt; have hj := j.isLt; omega⟩

/-- Box-row index of a coordinate, `row // 3` as `Fin 3`. -/
def boxOf (x : Fin 9) : Fin 3 := ⟨x.val / 3, by have hx := x.isLt; omega⟩

/-- `is_safe(board, row, col, num)`: the row membership test
`num in board[row]`, the column generator test, and the 3x3 box double
loop of the source, in that order. -/
def is_safe (b : Board) (row col : Fin 9) (num : Nat) : Bool :=
  if (List.finRange 9).any (fun c => b row c == num) then false
  else if (List.finRange 9).any (fun x => b x col == num) then false
  else if (List.finRange 3).any (fun i => (List.finRange 3).any (fun j =>
      b (boxCell3 (boxOf row) i) (boxCell3 (boxOf col) j) == num)) then false
  else true

/-- Candidate values `range(1, 10)`. -/
def nums1to9 : List Nat := [1, 2, 3, 4, 5, 6, 7, 8, 9]

/-- The candidate loop of `solve_backtracking`: try each `n`, tentatively
assign it, recurse (`recur`), keep the assignment on success, reset the
cell to 0 on failure and continue with the next candidate. -/
def tryLoop (recur : Board → Bool × Board) (r c : Fin 9) :
    List Nat → Board → Bool × Board
  | [], b => (false, b)
  | n :: ns, b =>
    if is_safe b r c n then
      let res := recur (setCell b r c n)
      if res.1 then res
      else tryLoop recur r c ns (setCell res.2 r c 0)
    else tryLoop recur r c ns b

/-- Fueled body of `solve_backtracking`. -/
def solveAux : Nat → Board → Bool × Board
  | 0, b => (false, b)
  | fuel + 1, b =>
    match find_empty b with
    | none => (true, b)
    | some (r, c) => tryLoop (solveAux fuel) r c nums1to9 b

/-- `solve_backtracking(board)`: returns the Python return value together
with the final state of the board argument. -/
def solve_backtracking (b : Board) : Bool × Board := solveAux 82 b

/-- The candidate loop of `count_solutions`: accumulate the recursive
counts, always reset the cell, and break as soon as `count >= limit`. -/
def countLoop (recur : Board → Nat × Board) (limit : Nat) (r c : Fin 9) :
    List Nat → Nat → Board → Nat × Board
  | [], cnt, b => (cnt, b)
  | n :: ns, cnt, b =>
    if is_safe b r c n then
      let res := recur (setCell b r c n)
      let b2 := setCell res.2 r c 0
      let cnt2 := cnt + res.1
      if limit ≤ cnt2 then (cnt2, b2)
      else countLoop recur limit r c ns cnt2 b2
    else countLoop recur limit r c ns cnt b

/-- Fueled body of `count_solutions`. -/
def countAux : Nat → Nat → Board → Nat × Board
  | 0, _, b => (0, b)
  | fuel + 1, limit, b =>
    match find_empty b with
    | none => (1, b)
    | some (r, c) => countLoop (countAux fuel limit) limit r c nums1to9 0 b

/-- `count_solutions(board, limit)`: returns the Python return value
together with the final state of the board argument. -/
def count_solutions (b : Board) (limit : Nat) : Nat × Board :=
  countAux 82 limit b

/-- The loop of `make_puzzle` over the shuffled cell list: stop once
`removed >= holes`; otherwise zero the cell, keep the removal if
`count_solutions` on a copy reports exactly one solution, and restore the
backup value otherwise. -/
def carveLoop : List (Fin 9 × Fin 9) → Nat → Nat → Board → Board
  | [], _, _, p => p
  | q :: rest, holes, removed, p =>
    if holes ≤ removed then p
    else
      let p1 := setCell p q.1 q.2 0
      if (count_solutions p1 2).1 = 1 then carveLoop rest holes (removed + 1) p1
      else carveLoop rest holes removed (setCell p1 q.1 q.2 (p q.1 q.2))

/-- `make_puzzle(full, holes)`: the shuffled list of all 81 coordinates is
passed in explicitly as `cells`. -/
def make_puzzle (full : Board) (holes : Nat)
    (cells : List (Fin 9 × Fin 9)) : Board :=
  carveLoop cells holes 0 full

/-! ### Specification-side predicates -/

/-- All cell values lie in 0..9 (0 meaning empty). -/
def inRange (b : Board) : Prop := ∀ r c, b r c ≤ 9

/-- All cell values lie in 1..9: the board is fully assigned. -/
def inRange19 (b : Board) : Prop := ∀ r c, 1 ≤ b r c ∧ b r c ≤ 9

/-- No cell is empty. -/
def Filled (b : Board) : Prop := ∀ r c, b r c ≠ 0

/-- Two cells share a row, a column, or a 3x3 box. -/
def sameUnit (p q : Fin 9 × Fin 9) : Prop :=
  p.1 = q.1 ∨ p.2 = q.2 ∨
    (p.1.val / 3 = q.1.val / 3 ∧ p.2.val / 3 = q.2.val / 3)

/-- No two distinct cells of a common unit hold the same nonzero value
(the partial-grid invariant of the specification). -/
def Consistent (b : Board) : Prop :=
  ∀ p q : Fin 9 × Fin 9, sameUnit p q → p ≠ q →
    b p.1 p.2 = 0 ∨ b p.1 p.2 ≠ b q.1 q.2

/-- Number of cells of row `r` holding value `v`. -/
def rowCount (b : Board) (r : Fin 9) (v : Nat) : Nat :=
  (Finset.univ.filter fun c : Fin 9 => b r c = v).card

/-- Number of cells of column `c` holding value `v`. -/
def colCount (b : Board) (c : Fin 9) (v : Nat) : Nat :=
  (Finset.univ.filter fun r : Fin 9 => b r c = v).card

/-- Number of cells of box `(bi, bj)` holding value `v`. -/
def boxCount (b : Board) (bi bj : Fin 3) (v : Nat) : Nat :=
  (Finset.univ.filter fun ij : Fin 3 × Fin 3 =>
    b (boxCell3 bi ij.1) (boxCell3 bj ij.2) = v).card

/-- The full-grid invariant: every row, every column and every 3x3 box
contains each of 1..9 exactly once. -/
def ValidFull (b : Board) : Prop :=
  ∀ v ∈ Finset.Icc 1 9,
    (∀ r, rowCount b r v = 1) ∧ (∀ c, colCount b c v = 1) ∧
      ∀ bi bj, boxCount b bi bj v = 1

/-- `F` is a valid completion of `b`: a fully assigned grid of digits 1..9
satisfying the full-grid invariant and agreeing with `b` on every nonzero
cell of `b`. -/
def IsCompletion (b F : Board) : Prop :=
  inRange19 F ∧ ValidFull F ∧ ∀ r c, b r c ≠ 0 → F r c = b r c

/-- Strict lexicographic order on boards under row-major cell order. -/
def BoardLt (a b : Board) : Prop :=
  ∃ p : Fin 9 × Fin 9, a p.1 p.2 < b p.1 p.2 ∧
    ∀ q, cellIdx q < cellIdx p → a q.1 q.2 = b q.1 q.2

/-- Lexicographic order on boards under row-major cell order. -/
def BoardLe (a b : Board) : Prop := a = b ∨ BoardLt a b

/-- Number of empty cells; the measure showing fuel 82 is never spent. -/
def numZeros (b : Board) : Nat :=
  (Finset.univ.filter fun p : Fin 9 × Fin 9 => b p.1 p.2 = 0).card

/-- The number of distinct valid completions of `b`. -/
noncomputable def numCompletions (b : Board) : Nat :=
  Set.ncard {F : Board | IsCompletion b F}

/-- Exhaustive reference enumeration of the completions found by the same
search order as `count_solutions`, with no cap; used to relate the capped
count to `numCompletions`. -/
def allSols : Nat → Board → List Board
  | 0, _ => []
  | fuel + 1, b =>
    match find_empty b with
    | none => [b]
    | some (r, c) =>
      nums1to9.flatMap fun n =>
        if is_safe b r c n then allSols fuel (setCell b r c n) else []

/-! ### Concrete boards -/

/-- Board literal helper: row-major list of rows, missing entries 0. -/
def ofRows (rows : List (List Nat)) : Board :=
  fun r c => (rows.getD r.val []).getD c.val 0

/-- A canonical solved grid (row `r` is the cyclic shift of 1..9 by
`3 * (r % 3) + r / 3`). -/
def baseGrid : Board :=
  fun r c => (3 * (r.val % 3) + r.val / 3 + c.val) % 9 + 1

/-- The fully assigned but invalid board holding 1 everywhere. -/
def allOnes : Board := fun _ _ => 1

/-- A consistent partial board with no valid completion: cell (0,3) sees
1,2,3 in its row and 4..9 in its column. -/
def unsolvableGrid : Board :=
  ofRows [[1, 2, 3], [], [], [0, 0, 0, 4], [0, 0, 0, 5], [0, 0, 0, 6],
    [0, 0, 0, 7], [0, 0, 0, 8], [0, 0, 0, 9]]

/-- A consistent board with exactly three completions on which
`count_solutions` with cap 2 returns 3: the first branch at the first
empty cell contributes one completion and the next contributes a capped
count of 2, so the break happens only at 3. -/
def overcountGrid : Board :=
  ofRows [
    [4, 2, 1, 0, 6, 0, 9, 7, 5],
    [7, 5, 9, 2, 4, 1, 6, 8, 3],
    [3, 8, 6, 9, 5, 7, 4, 1, 2],
    [6, 4, 7, 0, 9, 0, 0, 2, 1],
    [1, 3, 2, 6, 7, 0, 0, 9, 4],
    [8, 9, 5, 4, 1, 2, 7, 3, 6],
    [5, 1, 4, 7, 3, 9, 2, 6, 8],
    [2, 7, 3, 5, 8, 6, 1, 4, 9],
    [9, 6, 8, 1, 2, 4, 3, 5, 7]]

/-- The 81 cells in row-major order (used as the unshuffled permutation in
witnesses for `make_puzzle`). -/
def allCellsL : List (Fin 9 × Fin 9) :=
  (List.finRange 9).flatMap fun r => (List.finRange 9).map fun c => (r, c)

instance (p q : Fin 9 × Fin 9) : Decidable (sameUnit p q) := by
  unfold sameUnit; exact inferInstance

instance (b : Board) : Decidable (inRange b) := by
  unfold inRange; exact inferInstance

instance (b : Board) : Decidable (inRange19 b) := by
  unfold inRange19; exact inferInstance

instance (b : Board) : Decidable (Filled b) := by
  unfold Filled; exact inferInstance

instance (b : Board) : Decidable (Consistent b) := by
  unfold Consistent; exact inferInstance

instance (b : Board) : Decidable (ValidFull b) := by
  unfold ValidFull rowCount colCount boxCount; exact inferInstance

instance (b F : Board) : Decidable (IsCompletion b F) := by
  unfold IsCompletion; exact inferInstance

/-! ### Basic lemmas -/

theorem setCell_same (b : Board) (r c : Fin 9) (v : Nat) :
    setCell b r c v r c = v := by
  simp [setCell]

theorem setCell_ne (b : Board) (r c : Fin 9) (v : Nat) {r' c' : Fin 9}
    (h : ¬(r' = r ∧ c' = c)) : setCell b r c v r' c' = b r' c' := by
  simp [setCell, h]

theorem setCell_setCell (b : Board) (r c : Fin 9) (v w : Nat) :
    setCell (setCell b r c v) r c w = setCell b r c w := by
  funext r' c'
  by_cases h : r' = r ∧ c' = c <;> simp [setCell, h]

theorem setCell_self (b : Board) (r c : Fin 9) :
    setCell b r c (b r c) = b := by
  funext r' c'
  by_cases h : r' = r ∧ c' = c
  · obtain ⟨h1, h2⟩ := h; subst h1; subst h2; simp [setCell]
  · simp [setCell, h]

theorem cellIdx_lt_81 (p : Fin 9 × Fin 9) : cellIdx p < 81 := by
  have h1 := p.1.isLt; have h2 := p.2.isLt
  unfold cellIdx; omega

theorem cellIdx_inj {p q : Fin 9 × Fin 9} (h : cellIdx p = cellIdx q) :
    p = q := by
  obtain ⟨p1, p2⟩ := p; obtain ⟨q1, q2⟩ := q
  unfold cellIdx at h
  dsimp only at h
  have h1 := p1.isLt; have h2 := p2.isLt
  have h3 := q1.isLt; have h4 := q2.isLt
  simp only [Prod.mk.injEq]
  exact ⟨Fin.ext (by omega), Fin.ext (by omega)⟩

theorem eq_cell_of_idx {q : Fin 9 × Fin 9} {i : Nat} (h81 : i < 81)
    (h : cellIdx q = i) :
    q = (⟨i / 9, by omega⟩, ⟨i % 9, by omega⟩) := by
  obtain ⟨q1, q2⟩ := q
  unfold cellIdx at h
  dsimp only at h
  have h1 := q1.isLt; have h2 := q2.isLt
  simp only [Prod.mk.injEq]
  exact ⟨Fin.ext (by dsimp only; omega), Fin.ext (by dsimp only; omega)⟩

theorem findEmptyAux_some {b : Board} : ∀ k i p,
    findEmptyAux b k i = some p →
      b p.1 p.2 = 0 ∧ i ≤ cellIdx p ∧
        ∀ q, i ≤ cellIdx q → cellIdx q < cellIdx p → b q.1 q.2 ≠ 0 := by
  intro k
  induction k with
  | zero => intro i p h; simp [findEmptyAux] at h
  | succ k ih =>
    intro i p h
    rw [findEmptyAux] at h
    by_cases h81 : i < 81
    · rw [dif_pos h81] at h
      by_cases hz : b ⟨i / 9, by omega⟩ ⟨i % 9, by omega⟩ = 0
      · rw [if_pos hz] at h
        have hp : p = (⟨i / 9, by omega⟩, ⟨i % 9, by omega⟩) :=
          (Option.some_inj.mp h).symm
        subst hp
        have hidx : cellIdx (⟨i / 9, by omega⟩, (⟨i % 9, by omega⟩ : Fin 9)) = i := by
          unfold cellIdx; simp only []; omega
        refine ⟨hz, by omega, fun q hq1 hq2 => ?_⟩
        omega
      · rw [if_neg hz] at h
        obtain ⟨hb, hle, hfirst⟩ := ih (i + 1) p h
        refine ⟨hb, by omega, fun q hq1 hq2 => ?_⟩
        by_cases hqi : cellIdx q = i
        · have := eq_cell_of_idx h81 hqi
          rw [this]; exact hz
        · exact hfirst q (by omega) hq2
    · rw [dif_neg h81] at h; exact absurd h (by simp)

theorem findEmptyAux_none {b : Board} : ∀ k i, 81 ≤ i + k →
    findEmptyAux b k i = none →
      ∀ q : Fin 9 × Fin 9, i ≤ cellIdx q → b q.1 q.2 ≠ 0 := by
  intro k
  induction k with
  | zero =>
    intro i hik _ q hq
    have := cellIdx_lt_81 q; omega
  | succ k ih =>
    intro i hik h q hq
    rw [findEmptyAux] at h
    by_cases h81 : i < 81
    · rw [dif_pos h81] at h
      by_cases hz : b ⟨i / 9, by omega⟩ ⟨i % 9, by omega⟩ = 0
      · rw [if_pos hz] at h; exact absurd h (by simp)
      · rw [if_neg hz] at h
        by_cases hqi : cellIdx q = i
        · rw [eq_cell_of_idx h81 hqi]; exact hz
        · exact ih (i + 1) (by omega) h q (by omega)
    · have := cellIdx_lt_81 q; omega

theorem find_empty_none_iff (b : Board) :
    find_empty b = none ↔ ∀ r c, b r c ≠ 0 := by
  constructor
  · intro h r c
    exact findEmptyAux_none 81 0 (by omega) h (r, c) (Nat.zero_le _)
  · intro h
    cases hfe : find_empty b with
    | none => rfl
    | some p =>
      obtain ⟨hb, _, _⟩ := findEmptyAux_some 81 0 p hfe
      exact absurd hb (h p.1 p.2)

theorem find_empty_some_iff (b : Board) (r c : Fin 9) :
    find_empty b = some (r, c) ↔
      b r c = 0 ∧
        ∀ q : Fin 9 × Fin 9, cellIdx q < cellIdx (r, c) → b q.1 q.2 ≠ 0 := by
  constructor
  · intro h
    obtain ⟨hb, _, hfirst⟩ := findEmptyAux_some 81 0 (r, c) h
    exact ⟨hb, fun q hq => hfirst q (Nat.zero_le _) hq⟩
  · rintro ⟨hb, hfirst⟩
    cases hfe : find_empty b with
    | none => exact absurd hb ((find_empty_none_iff b).mp hfe r c)
    | some p =>
      obtain ⟨hpb, _, hpfirst⟩ := findEmptyAux_some 81 0 p hfe
      rcases Nat.lt_trichotomy (cellIdx p) (cellIdx (r, c)) with hlt | heq | hgt
      · exact absurd hpb (hfirst p hlt)
      · exact congrArg some (cellIdx_inj heq)
      · exact absurd hb (hpfirst (r, c) (Nat.zero_le _) hgt)

theorem numZeros_le (b : Board) : numZeros b ≤ 81 := by
  unfold numZeros
  calc (Finset.univ.filter fun p : Fin 9 × Fin 9 => b p.1 p.2 = 0).card
      ≤ (Finset.univ : Finset (Fin 9 × Fin 9)).card := Finset.card_filter_le _ _
    _ = 81 := by simp

theorem numZeros_setCell_lt {b : Board} {r c : Fin 9} {v : Nat}
    (hb : b r c = 0) (hv : v ≠ 0) :
    numZeros (setCell b r c v) < numZeros b := by
  unfold numZeros
  apply Finset.card_lt_card
  have hsub : (Finset.univ.filter fun p : Fin 9 × Fin 9 =>
      setCell b r c v p.1 p.2 = 0) ⊆
      Finset.univ.filter fun p : Fin 9 × Fin 9 => b p.1 p.2 = 0 := by
    intro p hp
    simp only [Finset.mem_filter, Finset.mem_univ, true_and] at hp ⊢
    by_cases hcase : p.1 = r ∧ p.2 = c
    · rw [setCell, if_pos hcase] at hp; exact absurd hp hv
    · rwa [setCell_ne b r c v hcase] at hp
  refine (Finset.ssubset_iff_of_subset hsub).mpr ⟨(r, c), ?_, ?_⟩
  · simp only [Finset.mem_filter, Finset.mem_univ, true_and]; exact hb
  · simp only [Finset.mem_filter, Finset.mem_univ, true_and]
    rw [setCell_same]; exact hv

/-! ### Characterization of `is_safe` -/

theorem sameUnit_mk (r c q1 q2 : Fin 9) :
    sameUnit (r, c) (q1, q2) ↔
      r = q1 ∨ c = q2 ∨ (r.val / 3 = q1.val / 3 ∧ c.val / 3 = q2.val / 3) :=
  Iff.rfl

theorem sameUnit_symm {p q : Fin 9 × Fin 9} (h : sameUnit p q) :
    sameUnit q p := by
  rcases h with h | h | h
  · exact Or.inl h.symm
  · exact Or.inr (Or.inl h.symm)
  · exact Or.inr (Or.inr ⟨h.1.symm, h.2.symm⟩)

theorem box_exists_iff (b : Board) (row col : Fin 9) (num : Nat) :
    (∃ i j : Fin 3, b (boxCell3 (boxOf row) i) (boxCell3 (boxOf col) j) = num)
      ↔ ∃ r' c' : Fin 9, r'.val / 3 = row.val / 3 ∧
          c'.val / 3 = col.val / 3 ∧ b r' c' = num := by
  constructor
  · rintro ⟨i, j, h⟩
    refine ⟨boxCell3 (boxOf row) i, boxCell3 (boxOf col) j, ?_, ?_, h⟩
    · unfold boxCell3 boxOf; dsimp only
      have := i.isLt; have := row.isLt; omega
    · unfold boxCell3 boxOf; dsimp only
      have := j.isLt; have := col.isLt; omega
  · rintro ⟨r', c', h1, h2, h⟩
    have hr := r'.isLt; have hc := c'.isLt
    refine ⟨⟨r'.val % 3, by omega⟩, ⟨c'.val % 3, by omega⟩, ?_⟩
    have e1 : boxCell3 (boxOf row) ⟨r'.val % 3, by omega⟩ = r' := by
      apply Fin.ext; unfold boxCell3 boxOf; dsimp only; omega
    have e2 : boxCell3 (boxOf col) ⟨c'.val % 3, by omega⟩ = c' := by
      apply Fin.ext; unfold boxCell3 boxOf; dsimp only; omega
    rw [e1, e2]; exact h

theorem is_safe_false_iff (b : Board) (row col : Fin 9) (num : Nat) :
    is_safe b row col num = false ↔
      (∃ c', b row c' = num) ∨ (∃ r', b r' col = num) ∨
        ∃ r' c' : Fin 9, r'.val / 3 = row.val / 3 ∧
          c'.val / 3 = col.val / 3 ∧ b r' c' = num := by
  have hrow : (((List.finRange 9).any fun c' => b row c' == num) = true)
      ↔ ∃ c', b row c' = num := by simp
  have hcol : (((List.finRange 9).any fun x => b x col == num) = true)
      ↔ ∃ r', b r' col = num := by simp
  have hbox : (((List.finRange 3).any fun i => (List.finRange 3).any fun j =>
        b (boxCell3 (boxOf row) i) (boxCell3 (boxOf col) j) == num)) = true
      ↔ ∃ i j : Fin 3,
          b (boxCell3 (boxOf row) i) (boxCell3 (boxOf col) j) = num := by simp
  unfold is_safe
  split_ifs with h1 h2 h3
  · exact iff_of_true rfl (Or.inl (hrow.mp h1))
  · exact iff_of_true rfl (Or.inr (Or.inl (hcol.mp h2)))
  · exact iff_of_true rfl
      (Or.inr (Or.inr ((box_exists_iff b row col num).mp (hbox.mp h3))))
  · refine iff_of_false (by simp) ?_
    rintro (hc | hr | hb)
    · exact h1 (hrow.mpr hc)
    · exact h2 (hcol.mpr hr)
    · exact h3 (hbox.mpr ((box_exists_iff b row col num).mpr hb))

theorem is_safe_false_iff_unit (b : Board) (r c : Fin 9) (n : Nat) :
    is_safe b r c n = false ↔
      ∃ q : Fin 9 × Fin 9, sameUnit (r, c) q ∧ b q.1 q.2 = n := by
  rw [is_safe_false_iff]
  constructor
  · rintro (⟨c', h⟩ | ⟨r', h⟩ | ⟨r', c', h1, h2, h⟩)
    · exact ⟨(r, c'), Or.inl rfl, h⟩
    · exact ⟨(r', c), Or.inr (Or.inl rfl), h⟩
    · exact ⟨(r', c'), Or.inr (Or.inr ⟨h1.symm, h2.symm⟩), h⟩
  · rintro ⟨⟨q1, q2⟩, hsame, hq⟩
    rw [sameUnit_mk] at hsame
    rcases hsame with h1 | h2 | h3
    · subst h1; exact Or.inl ⟨q2, hq⟩
    · subst h2; exact Or.inr (Or.inl ⟨q1, hq⟩)
    · exact Or.inr (Or.inr ⟨q1, q2, h3.1.symm, h3.2.symm, hq⟩)

theorem is_safe_true_iff_unit (b : Board) (r c : Fin 9) (n : Nat) :
    is_safe b r c n = true ↔
      ∀ q : Fin 9 × Fin 9, sameUnit (r, c) q → b q.1 q.2 ≠ n := by
  constructor
  · intro h q hsame hbq
    have hf := (is_safe_false_iff_unit b r c n).mpr ⟨q, hsame, hbq⟩
    rw [h] at hf; simp at hf
  · intro h
    cases hsf : is_safe b r c n with
    | true => rfl
    | false =>
      obtain ⟨q, hsame, hbq⟩ := (is_safe_false_iff_unit b r c n).mp hsf
      exact absurd hbq (h q hsame)

/-! ### Consistency and the full-grid invariant -/

theorem mem_nums1to9 {m : Nat} : m ∈ nums1to9 ↔ 1 ≤ m ∧ m ≤ 9 := by
  simp only [nums1to9, List.mem_cons, List.not_mem_nil, or_false]
  omega

theorem boxCell3_div (bi : Fin 3) (x : Fin 3) :
    (boxCell3 bi x).val / 3 = bi.val := by
  unfold boxCell3; dsimp only
  have := x.isLt; omega

theorem boxCell3_mod (x : Fin 9) :
    boxCell3 (boxOf x) ⟨x.val % 3, by have := x.isLt; omega⟩ = x := by
  apply Fin.ext; unfold boxCell3 boxOf; dsimp only
  have := x.isLt; omega

theorem inRange_setCell {b : Board} {r c : Fin 9} {n : Nat}
    (hb : inRange b) (hn : n ≤ 9) : inRange (setCell b r c n) := by
  intro r' c'
  by_cases h : r' = r ∧ c' = c
  · rw [setCell, if_pos h]; exact hn
  · rw [setCell_ne b r c n h]; exact hb r' c'

theorem consistent_setCell {b : Board} {r c : Fin 9} {n : Nat}
    (hc : Consistent b) (_hb : b r c = 0) (hs : is_safe b r c n = true) :
    Consistent (setCell b r c n) := by
  have hunit := (is_safe_true_iff_unit b r c n).mp hs
  intro p q hsame hne
  by_cases hp : p.1 = r ∧ p.2 = c
  · by_cases hq : q.1 = r ∧ q.2 = c
    · exact absurd (Prod.ext (hp.1.trans hq.1.symm) (hp.2.trans hq.2.symm)) hne
    · rw [setCell, if_pos hp, setCell_ne b r c n hq]
      by_cases hn0 : n = 0
      · exact Or.inl hn0
      · refine Or.inr fun heq => ?_
        have hpq : (p.1, p.2) = (r, c) := Prod.ext hp.1 hp.2
        have hsame2 : sameUnit (r, c) q := by
          have : sameUnit p q := hsame
          rwa [show p = (r, c) from Prod.ext hp.1 hp.2] at this
        exact hunit q hsame2 heq.symm
  · rw [setCell_ne b r c n hp]
    by_cases hq : q.1 = r ∧ q.2 = c
    · rw [setCell, if_pos hq]
      refine Or.imp id (fun _ heq => ?_) (Or.inr ?_ : b p.1 p.2 = 0 ∨ True)
      · have hsame2 : sameUnit (r, c) p := by
          have : sameUnit q p := sameUnit_symm hsame
          rwa [show q = (r, c) from Prod.ext hq.1 hq.2] at this
        exact hunit p hsame2 heq
      · exact trivial
    · rw [setCell_ne b r c n hq]
      exact hc p q hsame hne

theorem unit_card_one {ι : Type} [Fintype ι] [DecidableEq ι]
    (hcard : Fintype.card ι = 9) (e : ι → Fin 9 × Fin 9)
    (hinj : Function.Injective e)
    (hsame : ∀ i j, sameUnit (e i) (e j))
    {b : Board} (hf : Filled b) (hr : inRange b) (hc : Consistent b)
    {v : Nat} (hv1 : 1 ≤ v) (hv9 : v ≤ 9) :
    (Finset.univ.filter fun i => b (e i).1 (e i).2 = v).card = 1 := by
  have hbnd : ∀ i : ι, 1 ≤ b (e i).1 (e i).2 ∧ b (e i).1 (e i).2 ≤ 9 :=
    fun i => ⟨Nat.one_le_iff_ne_zero.mpr (hf _ _), hr _ _⟩
  have hginj : Function.Injective
      (fun i : ι => (⟨b (e i).1 (e i).2 - 1, by have := hbnd i; omega⟩ : Fin 9)) := by
    intro i j hij
    by_contra hne
    have hene : e i ≠ e j := fun h => hne (hinj h)
    rcases hc (e i) (e j) (hsame i j) hene with h0 | hneq
    · exact absurd h0 (Nat.one_le_iff_ne_zero.mp (hbnd i).1)
    · apply hneq
      have hval : b (e i).1 (e i).2 - 1 = b (e j).1 (e j).2 - 1 :=
        congrArg Fin.val hij
      have hbi := hbnd i; have hbj := hbnd j
      omega
  have hbij : Function.Bijective
      (fun i : ι => (⟨b (e i).1 (e i).2 - 1, by have := hbnd i; omega⟩ : Fin 9)) :=
    (Fintype.bijective_iff_injective_and_card _).mpr ⟨hginj, by simp [hcard]⟩
  obtain ⟨i0, hi0⟩ := hbij.2 ⟨v - 1, by omega⟩
  have hvi0 : b (e i0).1 (e i0).2 = v := by
    have hval : b (e i0).1 (e i0).2 - 1 = v - 1 := congrArg Fin.val hi0
    have := hbnd i0; omega
  rw [Finset.card_eq_one]
  refine ⟨i0, ?_⟩
  ext j
  simp only [Finset.mem_filter, Finset.mem_univ, true_and, Finset.mem_singleton]
  constructor
  · intro hj
    apply hginj
    apply Fin.ext
    dsimp only
    have := hbnd j; omega
  · intro hj; subst hj; exact hvi0

theorem validFull_of_filled {b : Board} (hf : Filled b) (hr : inRange b)
    (hc : Consistent b) : ValidFull b := by
  intro v hv
  rw [Finset.mem_Icc] at hv
  refine ⟨fun r => ?_, fun c => ?_, fun bi bj => ?_⟩
  · have h := unit_card_one (ι := Fin 9) (by simp) (fun c => (r, c))
      (fun a a' hh => by simpa using congrArg Prod.snd hh)
      (fun i j => Or.inl rfl) hf hr hc hv.1 hv.2
    simpa [rowCount] using h
  · have h := unit_card_one (ι := Fin 9) (by simp) (fun r' => (r', c))
      (fun a a' hh => by simpa using congrArg Prod.fst hh)
      (fun i j => Or.inr (Or.inl rfl)) hf hr hc hv.1 hv.2
    simpa [colCount] using h
  · have h := unit_card_one (ι := Fin 3 × Fin 3) (by simp)
      (fun ij => (boxCell3 bi ij.1, boxCell3 bj ij.2))
      (fun a a' hh => by
        have h1 : boxCell3 bi a.1 = boxCell3 bi a'.1 := congrArg Prod.fst hh
        have h2 : boxCell3 bj a.2 = boxCell3 bj a'.2 := congrArg Prod.snd hh
        have v1 : 3 * a.1.val + a.2.val = 3 * a'.1.val + a'.2.val := by
          have := congrArg Fin.val h1; have := congrArg Fin.val h2
          unfold boxCell3 at *; dsimp only at *
          have ha := a.2.isLt; have ha' := a'.2.isLt
          omega
        have ha1 := a.1.isLt; have ha2 := a.2.isLt
        have hb1 := a'.1.isLt; have hb2 := a'.2.isLt
        have hv1' : 3 * a.1.val + a.2.val = 3 * a'.1.val + a'.2.val := v1
        exact Prod.ext (Fin.ext (by omega)) (Fin.ext (by omega)))
      (fun i j => Or.inr (Or.inr (by
        constructor
        · dsimp only; rw [boxCell3_div, boxCell3_div]
        · dsimp only; rw [boxCell3_div, boxCell3_div])))
      hf hr hc hv.1 hv.2
    simpa [boxCount] using h

/-! ### Unfolding equations -/

theorem tryLoop_cons_safe (recur : Board → Bool × Board) (r c : Fin 9)
    (n : Nat) (ns : List Nat) (b : Board) (hs : is_safe b r c n = true) :
    tryLoop recur r c (n :: ns) b =
      if (recur (setCell b r c n)).1 = true then recur (setCell b r c n)
      else tryLoop recur r c ns (setCell (recur (setCell b r c n)).2 r c 0) := by
  rw [tryLoop, if_pos hs]

theorem tryLoop_cons_skip (recur : Board → Bool × Board) (r c : Fin 9)
    (n : Nat) (ns : List Nat) (b : Board) (hs : is_safe b r c n = false) :
    tryLoop recur r c (n :: ns) b = tryLoop recur r c ns b := by
  rw [tryLoop, if_neg (by simp [hs])]

theorem countLoop_cons_safe (recur : Board → Nat × Board) (limit : Nat)
    (r c : Fin 9) (n : Nat) (ns : List Nat) (cnt : Nat) (b : Board)
    (hs : is_safe b r c n = true) :
    countLoop recur limit r c (n :: ns) cnt b =
      if limit ≤ cnt + (recur (setCell b r c n)).1 then
        (cnt + (recur (setCell b r c n)).1,
          setCell (recur (setCell b r c n)).2 r c 0)
      else countLoop recur limit r c ns (cnt + (recur (setCell b r c n)).1)
        (setCell (recur (setCell b r c n)).2 r c 0) := by
  rw [countLoop, if_pos hs]

theorem countLoop_cons_skip (recur : Board → Nat × Board) (limit : Nat)
    (r c : Fin 9) (n : Nat) (ns : List Nat) (cnt : Nat) (b : Board)
    (hs : is_safe b r c n = false) :
    countLoop recur limit r c (n :: ns) cnt b =
      countLoop recur limit r c ns cnt b := by
  rw [countLoop, if_neg (by simp [hs])]

theorem solveAux_none {fuel : Nat} {b : Board} (hfe : find_empty b = none) :
    solveAux (fuel + 1) b = (true, b) := by
  rw [solveAux, hfe]

theorem solveAux_some {fuel : Nat} {b : Board} {r c : Fin 9}
    (hfe : find_empty b = some (r, c)) :
    solveAux (fuel + 1) b = tryLoop (solveAux fuel) r c nums1to9 b := by
  rw [solveAux, hfe]

theorem countAux_none {fuel limit : Nat} {b : Board}
    (hfe : find_empty b = none) : countAux (fuel + 1) limit b = (1, b) := by
  rw [countAux, hfe]

theorem countAux_some {fuel limit : Nat} {b : Board} {r c : Fin 9}
    (hfe : find_empty b = some (r, c)) :
    countAux (fuel + 1) limit b =
      countLoop (countAux fuel limit) limit r c nums1to9 0 b := by
  rw [countAux, hfe]

theorem allSols_none {fuel : Nat} {b : Board} (hfe : find_empty b = none) :
    allSols (fuel + 1) b = [b] := by
  rw [allSols, hfe]

theorem allSols_some {fuel : Nat} {b : Board} {r c : Fin 9}
    (hfe : find_empty b = some (r, c)) :
    allSols (fuel + 1) b = nums1to9.flatMap fun n =>
      if is_safe b r c n then allSols fuel (setCell b r c n) else [] := by
  rw [allSols, hfe]

theorem carveLoop_cons_stop (q : Fin 9 × Fin 9) (rest : List (Fin 9 × Fin 9))
    (holes removed : Nat) (p : Board) (h : holes ≤ removed) :
    carveLoop (q :: rest) holes removed p = p := by
  rw [carveLoop, if_pos h]

theorem carveLoop_cons_keep (q : Fin 9 × Fin 9) (rest : List (Fin 9 × Fin 9))
    (holes removed : Nat) (p : Board) (h : ¬ holes ≤ removed)
    (h1 : (count_solutions (setCell p q.1 q.2 0) 2).1 = 1) :
    carveLoop (q :: rest) holes removed p =
      carveLoop rest holes (removed + 1) (setCell p q.1 q.2 0) := by
  rw [carveLoop, if_neg h, if_pos h1]

theorem carveLoop_cons_revert (q : Fin 9 × Fin 9) (rest : List (Fin 9 × Fin 9))
    (holes removed : Nat) (p : Board) (h : ¬ holes ≤ removed)
    (h1 : ¬ (count_solutions (setCell p q.1 q.2 0) 2).1 = 1) :
    carveLoop (q :: rest) holes removed p =
      carveLoop rest holes removed
        (setCell (setCell p q.1 q.2 0) q.1 q.2 (p q.1 q.2)) := by
  rw [carveLoop, if_neg h, if_neg h1]

/-! ### Restoration: failed searches leave the board unchanged -/

theorem tryLoop_restore {recur : Board → Bool × Board} {r c : Fin 9}
    {b : Board} (hb : b r c = 0)
    (hrec : ∀ n, (recur (setCell b r c n)).1 = false →
      (recur (setCell b r c n)).2 = setCell b r c n) :
    ∀ ns : List Nat, (tryLoop recur r c ns b).1 = false →
      (tryLoop recur r c ns b).2 = b := by
  intro ns
  induction ns with
  | nil => intro _; rfl
  | cons n ns ih =>
    intro h
    cases hs : is_safe b r c n with
    | true =>
      rw [tryLoop_cons_safe recur r c n ns b hs] at h ⊢
      by_cases hres : (recur (setCell b r c n)).1 = true
      · rw [if_pos hres] at h; rw [hres] at h; exact absurd h (by simp)
      · have hres' : (recur (setCell b r c n)).1 = false := by
          simpa using hres
        rw [if_neg hres] at h ⊢
        have hback : setCell (recur (setCell b r c n)).2 r c 0 = b := by
          rw [hrec n hres', setCell_setCell, ← hb, setCell_self]
        rw [hback] at h ⊢
        exact ih h
    | false =>
      rw [tryLoop_cons_skip recur r c n ns b hs] at h ⊢
      exact ih h

theorem solveAux_restore : ∀ (fuel : Nat) (b : Board),
    (solveAux fuel b).1 = false → (solveAux fuel b).2 = b := by
  intro fuel
  induction fuel with
  | zero => intro b _; rfl
  | succ fuel ih =>
    intro b h
    cases hfe : find_empty b with
    | none => rw [solveAux_none hfe] at h; exact absurd h (by simp)
    | some p =>
      obtain ⟨r, c⟩ := p
      have hb : b r c = 0 := ((find_empty_some_iff b r c).mp hfe).1
      rw [solveAux_some hfe] at h ⊢
      exact tryLoop_restore hb (fun n => ih (setCell b r c n)) nums1to9 h

theorem countLoop_restore {recur : Board → Nat × Board} {limit : Nat}
    {r c : Fin 9} {b : Board} (hb : b r c = 0)
    (hrec : ∀ n, (recur (setCell b r c n)).2 = setCell b r c n) :
    ∀ (ns : List Nat) (cnt : Nat),
      (countLoop recur limit r c ns cnt b).2 = b := by
  intro ns
  induction ns with
  | nil => intro _; rfl
  | cons n ns ih =>
    intro cnt
    cases hs : is_safe b r c n with
    | true =>
      rw [countLoop_cons_safe recur limit r c n ns cnt b hs]
      have hback : setCell (recur (setCell b r c n)).2 r c 0 = b := by
        rw [hrec n, setCell_setCell, ← hb, setCell_self]
      by_cases hlim : limit ≤ cnt + (recur (setCell b r c n)).1
      · rw [if_pos hlim]; exact hback
      · rw [if_neg hlim, hback]; exact ih _
    | false =>
      rw [countLoop_cons_skip recur limit r c n ns cnt b hs]
      exact ih cnt

theorem countAux_restore : ∀ (fuel limit : Nat) (b : Board),
    (countAux fuel limit b).2 = b := by
  intro fuel
  induction fuel with
  | zero => intro limit b; rfl
  | succ fuel ih =>
    intro limit b
    cases hfe : find_empty b with
    | none => rw [countAux_none hfe]
    | some p =>
      obtain ⟨r, c⟩ := p
      have hb : b r c = 0 := ((find_empty_some_iff b r c).mp hfe).1
      rw [countAux_some hfe]
      exact countLoop_restore hb (fun n => ih limit (setCell b r c n))
        nums1to9 0

theorem boxCell3_eq (x : Fin 9) (bi j : Fin 3) (hbi : bi.val = x.val / 3)
    (hj : j.val = x.val % 3) : boxCell3 bi j = x := by
  apply Fin.ext; unfold boxCell3; dsimp only
  have := x.isLt; omega

theorem consistent_of_validFull {F : Board} (hr : inRange19 F)
    (hv : ValidFull F) : Consistent F := by
  intro p q hsame hne
  refine Or.inr fun heq => ?_
  have hv19 := hr p.1 p.2
  obtain ⟨hrow, hcol, hbox⟩ := hv (F p.1 p.2) (Finset.mem_Icc.mpr hv19)
  rcases hsame with h1 | h2 | h3
  · have hlt : 1 < rowCount F p.1 (F p.1 p.2) := by
      unfold rowCount
      apply Finset.one_lt_card.mpr
      refine ⟨p.2, ?_, q.2, ?_, fun h22 => hne (Prod.ext h1 h22)⟩
      · simp only [Finset.mem_filter, Finset.mem_univ, true_and]
      · simp only [Finset.mem_filter, Finset.mem_univ, true_and]
        calc F p.1 q.2 = F q.1 q.2 := by rw [h1]
          _ = F p.1 p.2 := heq.symm
    rw [hrow p.1] at hlt
    exact absurd hlt (by omega)
  · have hlt : 1 < colCount F p.2 (F p.1 p.2) := by
      unfold colCount
      apply Finset.one_lt_card.mpr
      refine ⟨p.1, ?_, q.1, ?_, fun h11 => hne (Prod.ext h11 h2)⟩
      · simp only [Finset.mem_filter, Finset.mem_univ, true_and]
      · simp only [Finset.mem_filter, Finset.mem_univ, true_and]
        calc F q.1 p.2 = F q.1 q.2 := by rw [h2]
          _ = F p.1 p.2 := heq.symm
    rw [hcol p.2] at hlt
    exact absurd hlt (by omega)
  · have hp1 := p.1.isLt; have hp2 := p.2.isLt
    have hq1 := q.1.isLt; have hq2 := q.2.isLt
    have hlt : 1 < boxCount F (boxOf p.1) (boxOf p.2) (F p.1 p.2) := by
      unfold boxCount
      apply Finset.one_lt_card.mpr
      refine ⟨(⟨p.1.val % 3, by omega⟩, ⟨p.2.val % 3, by omega⟩), ?_,
        (⟨q.1.val % 3, by omega⟩, ⟨q.2.val % 3, by omega⟩), ?_, ?_⟩
      · simp only [Finset.mem_filter, Finset.mem_univ, true_and]
        rw [boxCell3_eq p.1 (boxOf p.1) _ rfl rfl,
          boxCell3_eq p.2 (boxOf p.2) _ rfl rfl]
      · simp only [Finset.mem_filter, Finset.mem_univ, true_and]
        rw [boxCell3_eq q.1 (boxOf p.1) _ (by unfold boxOf; dsimp only; omega)
            rfl,
          boxCell3_eq q.2 (boxOf p.2) _ (by unfold boxOf; dsimp only; omega)
            rfl]
        exact heq.symm
      · intro hij
        simp only [Prod.mk.injEq] at hij
        have e1 : p.1.val % 3 = q.1.val % 3 := congrArg Fin.val hij.1
        have e2 : p.2.val % 3 = q.2.val % 3 := congrArg Fin.val hij.2
        exact hne (Prod.ext (Fin.ext (by omega)) (Fin.ext (by omega)))
    rw [hbox (boxOf p.1) (boxOf p.2)] at hlt
    exact absurd hlt (by omega)

theorem isCompletion_refl {b : Board} (hf : Filled b) (hr : inRange b)
    (hc : Consistent b) : IsCompletion b b :=
  ⟨fun r c => ⟨Nat.one_le_iff_ne_zero.mpr (hf r c), hr r c⟩,
    validFull_of_filled hf hr hc, fun _ _ _ => rfl⟩

theorem completion_eq_of_filled {b F : Board} (hf : Filled b)
    (hF : IsCompletion b F) : F = b :=
  funext fun r => funext fun c => hF.2.2 r c (hf r c)

theorem completion_of_setCell {b F : Board} {r c : Fin 9} {n : Nat}
    (hb : b r c = 0) (hF : IsCompletion (setCell b r c n) F) :
    IsCompletion b F := by
  refine ⟨hF.1, hF.2.1, fun r' c' hne => ?_⟩
  by_cases h : r' = r ∧ c' = c
  · obtain ⟨h1, h2⟩ := h; subst h1; subst h2; exact absurd hb hne
  · have := hF.2.2 r' c' (by rw [setCell_ne b r c n h]; exact hne)
    rwa [setCell_ne b r c n h] at this

theorem completion_setCell_of {b F : Board} {r c : Fin 9} {n : Nat}
    (hF : IsCompletion b F) (hFrc : F r c = n) :
    IsCompletion (setCell b r c n) F := by
  refine ⟨hF.1, hF.2.1, fun r' c' hne => ?_⟩
  by_cases h : r' = r ∧ c' = c
  · obtain ⟨h1, h2⟩ := h; subst h1; subst h2
    rw [setCell_same]; exact hFrc
  · rw [setCell_ne b r c n h]
    rw [setCell_ne b r c n h] at hne
    exact hF.2.2 r' c' hne

theorem completion_consistent {b F : Board} (hF : IsCompletion b F) :
    Consistent b ∧ inRange b := by
  obtain ⟨hr19, hvf, hag⟩ := hF
  have hFcons : Consistent F := consistent_of_validFull hr19 hvf
  constructor
  · intro p q hsame hne
    by_cases hp0 : b p.1 p.2 = 0
    · exact Or.inl hp0
    · refine Or.inr fun heq => ?_
      by_cases hq0 : b q.1 q.2 = 0
      · rw [hq0] at heq; exact hp0 heq
      · have e1 := hag p.1 p.2 hp0
        have e2 := hag q.1 q.2 hq0
        rcases hFcons p q hsame hne with h0 | hneq
        · exact absurd h0 (by have := (hr19 p.1 p.2).1; omega)
        · exact hneq (by rw [e1, e2]; exact heq)
  · intro r c
    by_cases h0 : b r c = 0
    · rw [h0]; omega
    · rw [← hag r c h0]; exact (hr19 r c).2

theorem completion_ne_of_blocked {b : Board} {r c : Fin 9} {n : Nat}
    (hs : is_safe b r c n = false) (hb : b r c = 0) (hn : n ≠ 0)
    {F : Board} (hF : IsCompletion b F) : F r c ≠ n := by
  intro hFn
  obtain ⟨q, hsame, hq⟩ := (is_safe_false_iff_unit b r c n).mp hs
  have hq0 : b q.1 q.2 ≠ 0 := by rw [hq]; exact hn
  have hFq : F q.1 q.2 = n := by rw [hF.2.2 q.1 q.2 hq0]; exact hq
  have hqne : (r, c) ≠ q := by
    intro h
    rw [← h] at hq
    dsimp only at hq
    rw [hb] at hq
    exact hn hq.symm
  have hFcons := consistent_of_validFull hF.1 hF.2.1
  rcases hFcons (r, c) q hsame hqne with h0 | hneq
  · dsimp only at h0
    rw [hFn] at h0
    exact hn h0
  · exact hneq (by dsimp only; rw [hFn, hFq])

theorem completion_safe {b : Board} {r c : Fin 9} (hb : b r c = 0)
    {F : Board} (hF : IsCompletion b F) : is_safe b r c (F r c) = true := by
  cases hsf : is_safe b r c (F r c) with
  | true => rfl
  | false =>
    have hn : F r c ≠ 0 := by have := (hF.1 r c).1; omega
    exact absurd rfl (completion_ne_of_blocked hsf hb hn hF)

theorem completion_mem_nums {b F : Board} (hF : IsCompletion b F)
    (r c : Fin 9) : F r c ∈ nums1to9 :=
  mem_nums1to9.mpr (hF.1 r c)

/-! ### Main specification of the solver -/

theorem tryLoop_spec (fuel : Nat) (r c : Fin 9) (b : Board)
    (IH : ∀ b', numZeros b' < fuel → Consistent b' → inRange b' →
      (((solveAux fuel b').1 = true → IsCompletion b' (solveAux fuel b').2 ∧
        ∀ G, IsCompletion b' G → BoardLe (solveAux fuel b').2 G) ∧
      ((solveAux fuel b').1 = false → ∀ G, ¬ IsCompletion b' G)))
    (hb : b r c = 0)
    (hfirst : ∀ q : Fin 9 × Fin 9, cellIdx q < cellIdx (r, c) → b q.1 q.2 ≠ 0)
    (hcons : Consistent b) (hrange : inRange b) (hnz : numZeros b ≤ fuel) :
    ∀ ns : List Nat, (∀ m ∈ ns, 1 ≤ m ∧ m ≤ 9) →
      List.Pairwise (· < ·) ns →
      (((tryLoop (solveAux fuel) r c ns b).1 = true →
          IsCompletion b (tryLoop (solveAux fuel) r c ns b).2 ∧
          ∀ G, IsCompletion b G → G r c ∈ ns →
            BoardLe (tryLoop (solveAux fuel) r c ns b).2 G) ∧
        ((tryLoop (solveAux fuel) r c ns b).1 = false →
          ∀ G, IsCompletion b G → G r c ∉ ns)) := by
  intro ns
  induction ns with
  | nil =>
    intro _ _
    constructor
    · intro h; simp [tryLoop] at h
    · intro _ G _; simp
  | cons n ns ih =>
    intro hmem hpw
    have hn9 : 1 ≤ n ∧ n ≤ 9 := hmem n (List.mem_cons_self n ns)
    have hmem' : ∀ m ∈ ns, 1 ≤ m ∧ m ≤ 9 :=
      fun m hm => hmem m (List.mem_cons_of_mem n hm)
    have hlt_all : ∀ m ∈ ns, n < m := (List.pairwise_cons.mp hpw).1
    have hpair' : List.Pairwise (· < ·) ns := (List.pairwise_cons.mp hpw).2
    by_cases hs : is_safe b r c n = true
    · rw [tryLoop_cons_safe _ _ _ _ _ _ hs]
      have hBcons : Consistent (setCell b r c n) := consistent_setCell hcons hb hs
      have hBrange : inRange (setCell b r c n) := inRange_setCell hrange hn9.2
      have hBnz : numZeros (setCell b r c n) < fuel :=
        lt_of_lt_of_le (numZeros_setCell_lt hb (by omega)) hnz
      have hIHB := IH (setCell b r c n) hBnz hBcons hBrange
      by_cases hres : (solveAux fuel (setCell b r c n)).1 = true
      · rw [if_pos hres]
        obtain ⟨hcompl, hmin⟩ := hIHB.1 hres
        have hcomplB : IsCompletion b (solveAux fuel (setCell b r c n)).2 :=
          completion_of_setCell hb hcompl
        constructor
        · intro _
          refine ⟨hcomplB, fun G hG hGmem => ?_⟩
          rcases List.mem_cons.mp hGmem with hGn | hGns
          · exact hmin G (completion_setCell_of hG hGn)
          · right
            have hn0 : (setCell b r c n) r c ≠ 0 := by
              rw [setCell_same]; omega
            have hres2rc : (solveAux fuel (setCell b r c n)).2 r c = n := by
              have h := hcompl.2.2 r c hn0
              rw [h, setCell_same]
            refine ⟨(r, c), ?_, ?_⟩
            · dsimp only
              rw [hres2rc]
              exact hlt_all _ hGns
            · intro q hq
              have hq0 : b q.1 q.2 ≠ 0 := hfirst q hq
              rw [hcomplB.2.2 q.1 q.2 hq0, hG.2.2 q.1 q.2 hq0]
        · intro hfalse
          rw [hres] at hfalse
          exact absurd hfalse (by simp)
      · have hresf : (solveAux fuel (setCell b r c n)).1 = false := by
          simpa using hres
        rw [if_neg hres]
        have hrestore : (solveAux fuel (setCell b r c n)).2 = setCell b r c n :=
          solveAux_restore fuel _ hresf
        have hback : setCell (solveAux fuel (setCell b r c n)).2 r c 0 = b := by
          rw [hrestore, setCell_setCell, ← hb, setCell_self]
        rw [hback]
        have hnone : ∀ G, ¬ IsCompletion (setCell b r c n) G := hIHB.2 hresf
        have hnotn : ∀ G, IsCompletion b G → G r c ≠ n :=
          fun G hG hGn => hnone G (completion_setCell_of hG hGn)
        obtain ⟨ihT, ihF⟩ := ih hmem' hpair'
        constructor
        · intro htrue
          obtain ⟨hcomp, hminT⟩ := ihT htrue
          refine ⟨hcomp, fun G hG hGmem => ?_⟩
          rcases List.mem_cons.mp hGmem with hGn | hGns
          · exact absurd hGn (hnotn G hG)
          · exact hminT G hG hGns
        · intro hfalse G hG hGmem
          rcases List.mem_cons.mp hGmem with hGn | hGns
          · exact hnotn G hG hGn
          · exact ihF hfalse G hG hGns
    · have hsf : is_safe b r c n = false := by simpa using hs
      rw [tryLoop_cons_skip _ _ _ _ _ _ hsf]
      have hnotn : ∀ G, IsCompletion b G → G r c ≠ n :=
        fun G hG => completion_ne_of_blocked hsf hb (by omega) hG
      obtain ⟨ihT, ihF⟩ := ih hmem' hpair'
      constructor
      · intro htrue
        obtain ⟨hcomp, hminT⟩ := ihT htrue
        refine ⟨hcomp, fun G hG hGmem => ?_⟩
        rcases List.mem_cons.mp hGmem with hGn | hGns
        · exact absurd hGn (hnotn G hG)
        · exact hminT G hG hGns
      · intro hfalse G hG hGmem
        rcases List.mem_cons.mp hGmem with hGn | hGns
        · exact hnotn G hG hGn
        · exact ihF hfalse G hG hGns

theorem solveAux_main : ∀ (fuel : Nat) (b : Board), numZeros b < fuel →
    Consistent b → inRange b →
    (((solveAux fuel b).1 = true → IsCompletion b (solveAux fuel b).2 ∧
      ∀ G, IsCompletion b G → BoardLe (solveAux fuel b).2 G) ∧
    ((solveAux fuel b).1 = false → ∀ G, ¬ IsCompletion b G)) := by
  intro fuel
  induction fuel with
  | zero => intro b h; exact absurd h (by omega)
  | succ fuel IH =>
    intro b hnz hcons hrange
    cases hfe : find_empty b with
    | none =>
      rw [solveAux_none hfe]
      constructor
      · intro _
        have hfill : Filled b := fun r c => (find_empty_none_iff b).mp hfe r c
        have hcomp := isCompletion_refl hfill hrange hcons
        exact ⟨hcomp, fun G hG =>
          Or.inl (completion_eq_of_filled hfill hG).symm⟩
      · intro h; exact absurd h (by simp)
    | some p =>
      obtain ⟨r, c⟩ := p
      obtain ⟨hb, hfirst⟩ := (find_empty_some_iff b r c).mp hfe
      rw [solveAux_some hfe]
      have hloop := tryLoop_spec fuel r c b IH hb hfirst hcons hrange
        (by omega) nums1to9 (fun m hm => mem_nums1to9.mp hm) (by decide)
      constructor
      · intro htrue
        obtain ⟨hcomp, hmin⟩ := hloop.1 htrue
        exact ⟨hcomp, fun G hG => hmin G hG (completion_mem_nums hG r c)⟩
      · intro hfalse G hG
        exact (hloop.2 hfalse G hG) (completion_mem_nums hG r c)

/-! ### The exhaustive enumeration and the capped counter -/

theorem allSols_mem : ∀ (fuel : Nat) (b : Board), numZeros b < fuel →
    Consistent b → inRange b →
    ∀ F, F ∈ allSols fuel b ↔ IsCompletion b F := by
  intro fuel
  induction fuel with
  | zero => intro b h; exact absurd h (by omega)
  | succ fuel IH =>
    intro b hnz hcons hrange F
    cases hfe : find_empty b with
    | none =>
      rw [allSols_none hfe]
      have hfill : Filled b := fun r c => (find_empty_none_iff b).mp hfe r c
      simp only [List.mem_singleton]
      constructor
      · rintro rfl; exact isCompletion_refl hfill hrange hcons
      · intro hF; exact completion_eq_of_filled hfill hF
    | some p =>
      obtain ⟨r, c⟩ := p
      obtain ⟨hb, _⟩ := (find_empty_some_iff b r c).mp hfe
      rw [allSols_some hfe]
      rw [List.mem_flatMap]
      constructor
      · rintro ⟨n, hn, hFin⟩
        have hn9 := mem_nums1to9.mp hn
        by_cases hs : is_safe b r c n = true
        · rw [if_pos hs] at hFin
          have hBcons : Consistent (setCell b r c n) :=
            consistent_setCell hcons hb hs
          have hBrange : inRange (setCell b r c n) :=
            inRange_setCell hrange hn9.2
          have hBnz : numZeros (setCell b r c n) < fuel :=
            lt_of_lt_of_le (numZeros_setCell_lt hb (by omega)) (by omega)
          exact completion_of_setCell hb
            ((IH (setCell b r c n) hBnz hBcons hBrange F).mp hFin)
        · rw [if_neg hs] at hFin
          exact absurd hFin (List.not_mem_nil F)
      · intro hF
        refine ⟨F r c, completion_mem_nums hF r c, ?_⟩
        have hs : is_safe b r c (F r c) = true := completion_safe hb hF
        rw [if_pos hs]
        have hn9 := (hF.1 r c)
        have hBcons : Consistent (setCell b r c (F r c)) :=
          consistent_setCell hcons hb hs
        have hBrange : inRange (setCell b r c (F r c)) :=
          inRange_setCell hrange hn9.2
        have hBnz : numZeros (setCell b r c (F r c)) < fuel :=
          lt_of_lt_of_le (numZeros_setCell_lt hb (by omega)) (by omega)
        exact (IH (setCell b r c (F r c)) hBnz hBcons hBrange F).mpr
          (completion_setCell_of hF rfl)

theorem nodup_flatMap_of {α β : Type} : ∀ (l : List α) (f : α → List β),
    (∀ a ∈ l, (f a).Nodup) →
    (∀ a1 ∈ l, ∀ a2 ∈ l, a1 ≠ a2 → ∀ x ∈ f a1, x ∉ f a2) →
    l.Nodup → (l.flatMap f).Nodup := by
  intro l
  induction l with
  | nil => intro f _ _ _; simp
  | cons a l ih =>
    intro f hnd hdisj hl
    rw [List.flatMap_cons, List.nodup_append]
    refine ⟨hnd a (List.mem_cons_self a l), ?_, ?_⟩
    · exact ih f (fun a' ha' => hnd a' (List.mem_cons_of_mem a ha'))
        (fun a1 h1 a2 h2 => hdisj a1 (List.mem_cons_of_mem a h1) a2
          (List.mem_cons_of_mem a h2))
        ((List.nodup_cons.mp hl).2)
    · intro x hx hx2
      rw [List.mem_flatMap] at hx2
      obtain ⟨a2, ha2, hxa2⟩ := hx2
      have hane : a ≠ a2 := fun h =>
        (List.nodup_cons.mp hl).1 (h ▸ ha2)
      exact hdisj a (List.mem_cons_self a l) a2
        (List.mem_cons_of_mem a ha2) hane x hx hxa2

theorem allSols_value {fuel : Nat} {b : Board} {r c : Fin 9} {n : Nat}
    (hnz : numZeros b < fuel + 1) (hcons : Consistent b) (hrange : inRange b)
    (hb : b r c = 0) (hn9 : 1 ≤ n ∧ n ≤ 9) (hs : is_safe b r c n = true)
    {F : Board} (hF : F ∈ allSols fuel (setCell b r c n)) : F r c = n := by
  have hBcons : Consistent (setCell b r c n) := consistent_setCell hcons hb hs
  have hBrange : inRange (setCell b r c n) := inRange_setCell hrange hn9.2
  have hBnz : numZeros (setCell b r c n) < fuel :=
    lt_of_lt_of_le (numZeros_setCell_lt hb (by omega)) (by omega)
  have hcomp := (allSols_mem fuel (setCell b r c n) hBnz hBcons hBrange F).mp hF
  have := hcomp.2.2 r c (by rw [setCell_same]; omega)
  rw [this, setCell_same]

theorem allSols_nodup : ∀ (fuel : Nat) (b : Board), numZeros b < fuel →
    Consistent b → inRange b → (allSols fuel b).Nodup := by
  intro fuel
  induction fuel with
  | zero => intro b h; exact absurd h (by omega)
  | succ fuel IH =>
    intro b hnz hcons hrange
    cases hfe : find_empty b with
    | none => rw [allSols_none hfe]; simp
    | some p =>
      obtain ⟨r, c⟩ := p
      obtain ⟨hb, _⟩ := (find_empty_some_iff b r c).mp hfe
      rw [allSols_some hfe]
      apply nodup_flatMap_of
      · intro n hn
        have hn9 := mem_nums1to9.mp hn
        by_cases hs : is_safe b r c n = true
        · rw [if_pos hs]
          exact IH (setCell b r c n)
            (lt_of_lt_of_le (numZeros_setCell_lt hb (by omega)) (by omega))
            (consistent_setCell hcons hb hs) (inRange_setCell hrange hn9.2)
        · rw [if_neg hs]; simp
      · intro a1 h1 a2 h2 hne x hx hx2
        have h19 := mem_nums1to9.mp h1
        have h29 := mem_nums1to9.mp h2
        by_cases hs1 : is_safe b r c a1 = true
        · by_cases hs2 : is_safe b r c a2 = true
          · rw [if_pos hs1] at hx
            rw [if_pos hs2] at hx2
            have e1 := allSols_value hnz hcons hrange hb h19 hs1 hx
            have e2 := allSols_value hnz hcons hrange hb h29 hs2 hx2
            exact hne (e1 ▸ e2 ▸ rfl)
          · rw [if_neg hs2] at hx2; exact List.not_mem_nil x hx2
        · rw [if_neg hs1] at hx; exact List.not_mem_nil x hx
      · decide

theorem countLoop_len (fuel limit : Nat) (r c : Fin 9) (b : Board)
    (IHcnt : ∀ b', numZeros b' < fuel → Consistent b' → inRange b' →
      ((countAux fuel limit b').1 ≤ (allSols fuel b').length ∧
        (limit ≤ (countAux fuel limit b').1 ∨
          (countAux fuel limit b').1 = (allSols fuel b').length)))
    (hb : b r c = 0) (hcons : Consistent b) (hrange : inRange b)
    (hnz : numZeros b ≤ fuel) :
    ∀ (ns : List Nat) (cnt : Nat), (∀ m ∈ ns, 1 ≤ m ∧ m ≤ 9) → cnt < limit →
      ((countLoop (countAux fuel limit) limit r c ns cnt b).1 ≤
        cnt + (ns.flatMap fun n => if is_safe b r c n then
          allSols fuel (setCell b r c n) else []).length ∧
      (limit ≤ (countLoop (countAux fuel limit) limit r c ns cnt b).1 ∨
        (countLoop (countAux fuel limit) limit r c ns cnt b).1 =
          cnt + (ns.flatMap fun n => if is_safe b r c n then
            allSols fuel (setCell b r c n) else []).length)) := by
  intro ns
  induction ns with
  | nil =>
    intro cnt _ _
    simp [countLoop]
  | cons n ns ih =>
    intro cnt hmem hcnt
    have hn9 : 1 ≤ n ∧ n ≤ 9 := hmem n (List.mem_cons_self n ns)
    have hmem' : ∀ m ∈ ns, 1 ≤ m ∧ m ≤ 9 :=
      fun m hm => hmem m (List.mem_cons_of_mem n hm)
    by_cases hs : is_safe b r c n = true
    · rw [countLoop_cons_safe _ _ _ _ _ _ _ _ hs]
      have hback : setCell (countAux fuel limit (setCell b r c n)).2 r c 0
          = b := by
        rw [countAux_restore fuel limit (setCell b r c n), setCell_setCell,
          ← hb, setCell_self]
      have hBcons : Consistent (setCell b r c n) :=
        consistent_setCell hcons hb hs
      have hBrange : inRange (setCell b r c n) :=
        inRange_setCell hrange hn9.2
      have hBnz : numZeros (setCell b r c n) < fuel :=
        lt_of_lt_of_le (numZeros_setCell_lt hb (by omega)) hnz
      obtain ⟨hk1, hk2⟩ := IHcnt (setCell b r c n) hBnz hBcons hBrange
      rw [List.flatMap_cons, List.length_append, if_pos hs]
      by_cases hlim : limit ≤ cnt + (countAux fuel limit (setCell b r c n)).1
      · rw [if_pos hlim]
        dsimp only
        constructor
        · omega
        · exact Or.inl hlim
      · rw [if_neg hlim, hback]
        have hkeq : (countAux fuel limit (setCell b r c n)).1 =
            (allSols fuel (setCell b r c n)).length := by
          rcases hk2 with h | h
          · omega
          · exact h
        obtain ⟨hr1, hr2⟩ := ih (cnt + (countAux fuel limit (setCell b r c n)).1)
          hmem' (by omega)
        constructor
        · omega
        · rcases hr2 with h | h
          · exact Or.inl h
          · right; omega
    · have hsf : is_safe b r c n = false := by simpa using hs
      rw [countLoop_cons_skip _ _ _ _ _ _ _ _ hsf]
      rw [List.flatMap_cons, List.length_append, if_neg hs]
      obtain ⟨hr1, hr2⟩ := ih cnt hmem' hcnt
      simp only [List.length_nil]
      constructor
      · omega
      · rcases hr2 with h | h
        · exact Or.inl h
        · right; omega

theorem countAux_len : ∀ (fuel limit : Nat) (b : Board), numZeros b < fuel →
    1 ≤ limit → Consistent b → inRange b →
    ((countAux fuel limit b).1 ≤ (allSols fuel b).length ∧
      (limit ≤ (countAux fuel limit b).1 ∨
        (countAux fuel limit b).1 = (allSols fuel b).length)) := by
  intro fuel
  induction fuel with
  | zero => intro limit b h; exact absurd h (by omega)
  | succ fuel IH =>
    intro limit b hnz hlim hcons hrange
    cases hfe : find_empty b with
    | none =>
      rw [countAux_none hfe, allSols_none hfe]
      constructor
      · simp
      · by_cases h1 : limit ≤ 1
        · exact Or.inl h1
        · right; simp
    | some p =>
      obtain ⟨r, c⟩ := p
      obtain ⟨hb, _⟩ := (find_empty_some_iff b r c).mp hfe
      rw [countAux_some hfe, allSols_some hfe]
      have h := countLoop_len fuel limit r c b
        (fun b' h1 h2 h3 => IH limit b' h1 hlim h2 h3) hb hcons hrange
        (by omega) nums1to9 0 (fun m hm => mem_nums1to9.mp hm) (by omega)
      simpa using h

/-! ### The randomized generator -/

theorem numCompletions_eq_length {b : Board} (hcons : Consistent b)
    (hrange : inRange b) : numCompletions b = (allSols 82 b).length := by
  have hnz : numZeros b < 82 := lt_of_le_of_lt (numZeros_le b) (by omega)
  have hset : {F : Board | IsCompletion b F} = ↑(allSols 82 b).toFinset := by
    ext F
    simp only [Set.mem_setOf_eq, Finset.coe_sort_coe, Finset.mem_coe,
      List.mem_toFinset]
    exact (allSols_mem 82 b hnz hcons hrange F).symm
  unfold numCompletions
  rw [hset, Set.ncard_coe_Finset]
  exact List.toFinset_card_of_nodup (allSols_nodup 82 b hnz hcons hrange)

/-! ### The carver invariant -/

theorem carveLoop_spec (s : Board) :
    ∀ (cells : List (Fin 9 × Fin 9)) (holes removed : Nat) (p : Board),
      (count_solutions p 2).1 = 1 → (∀ r c, p r c ≠ 0 → p r c = s r c) →
      ((count_solutions (carveLoop cells holes removed p) 2).1 = 1 ∧
        ∀ r c, carveLoop cells holes removed p r c ≠ 0 →
          carveLoop cells holes removed p r c = s r c) := by
  intro cells
  induction cells with
  | nil => intro holes removed p h1 h2; exact ⟨h1, h2⟩
  | cons q rest ih =>
    intro holes removed p h1 h2
    by_cases hstop : holes ≤ removed
    · rw [carveLoop_cons_stop _ _ _ _ _ hstop]; exact ⟨h1, h2⟩
    · by_cases hkeep : (count_solutions (setCell p q.1 q.2 0) 2).1 = 1
      · rw [carveLoop_cons_keep _ _ _ _ _ hstop hkeep]
        apply ih
        · exact hkeep
        · intro r c hne
          by_cases hq : r = q.1 ∧ c = q.2
          · obtain ⟨e1, e2⟩ := hq; subst e1; subst e2
            rw [setCell_same] at hne
            exact absurd rfl hne
          · rw [setCell_ne p q.1 q.2 0 hq] at hne ⊢
            exact h2 r c hne
      · rw [carveLoop_cons_revert _ _ _ _ _ hstop hkeep]
        rw [setCell_setCell, setCell_self]
        exact ih holes removed p h1 h2

/-! ### Top-level facts used by several claims -/

set_option maxRecDepth 1000000

theorem solve_filled {b : Board} (hf : Filled b) :
    solve_backtracking b = (true, b) := by
  have hfe : find_empty b = none := (find_empty_none_iff b).mpr hf
  show solveAux (81 + 1) b = (true, b)
  exact solveAux_none hfe

theorem count_filled {b : Board} (hf : Filled b) (limit : Nat) :
    count_solutions b limit = (1, b) := by
  have hfe : find_empty b = none := (find_empty_none_iff b).mpr hf
  show countAux (81 + 1) limit b = (1, b)
  exact countAux_none hfe

theorem solve_main (b : Board) (hcons : Consistent b) (hrange : inRange b) :
    (((solve_backtracking b).1 = true →
      IsCompletion b (solve_backtracking b).2 ∧
      ∀ G, IsCompletion b G → BoardLe (solve_backtracking b).2 G) ∧
    ((solve_backtracking b).1 = false → ∀ G, ¬ IsCompletion b G)) :=
  solveAux_main 82 b (lt_of_le_of_lt (numZeros_le b) (by omega)) hcons hrange

theorem allOnes_no_completion : ¬ ∃ F : Board, IsCompletion allOnes F := by
  rintro ⟨F, hF⟩
  have hFeq : F = allOnes :=
    funext fun r => funext fun c => hF.2.2 r c (by simp [allOnes])
  rw [hFeq] at hF
  exact absurd hF.2.1 (by decide)

theorem unsolvableGrid_no_completion :
    ¬ ∃ F : Board, IsCompletion unsolvableGrid F := by
  rintro ⟨F, hF⟩
  have hfalse : (solve_backtracking unsolvableGrid).1 = false := by decide
  exact (solve_main unsolvableGrid (by decide) (by decide)).2 hfalse F hF

/-! ### The claims -/

/-- C1 counterexample: the all-ones grid is a 9x9 grid of integers in
[0,9] on which `solve_backtracking` returns true, yet the resulting grid
does not satisfy the full-grid invariant — the solver never validates
already-placed values. -/
theorem C1_counterexample :
    (solve_backtracking allOnes).1 = true ∧
      ¬ ValidFull (solve_backtracking allOnes).2 := by
  constructor
  · decide
  · decide

/-- C1 (amended): for every 9x9 grid of integers in [0,9] whose placed
values are consistent (no two same-unit cells share a nonzero value), if
`solve_backtracking` returns true then the grid after the call satisfies
the full-grid invariant: every row, column and 3x3 box contains each of
1..9 exactly once. -/
theorem C1_solve_true_validFull (b : Board) (hrange : inRange b)
    (hcons : Consistent b) (htrue : (solve_backtracking b).1 = true) :
    ValidFull (solve_backtracking b).2 :=
  ((solve_main b hcons hrange).1 htrue).1.2.1

/-- C1 witness: the amended claim instantiated at the canonical solved
grid. -/
theorem C1_witness :
    inRange baseGrid ∧ Consistent baseGrid ∧
      (solve_backtracking baseGrid).1 = true ∧
      ValidFull (solve_backtracking baseGrid).2 :=
  ⟨by decide, by decide, by decide,
    C1_solve_true_validFull baseGrid (by decide) (by decide) (by decide)⟩

/-- C2 counterexample: on `overcountGrid` (a consistent grid of digits in
[0,9]) with cap 2, `count_solutions` returns 3, which cannot equal
`min(numCompletions, 2)` since the latter is at most 2. -/
theorem C2_counterexample :
    (count_solutions overcountGrid 2).1 = 3 ∧
      min (numCompletions overcountGrid) 2 ≠
        (count_solutions overcountGrid 2).1 := by
  have h3 : (count_solutions overcountGrid 2).1 = 3 := by decide
  refine ⟨h3, ?_⟩
  rw [h3]
  have := Nat.min_le_right (numCompletions overcountGrid) 2
  omega

/-- C2 (amended): for every 9x9 grid of integers in [0,9] whose placed
values are consistent and every cap at least 1, the result of
`count_solutions` never exceeds the number of distinct valid completions,
and it agrees with that number below the cap: `min(result, cap) =
min(numCompletions, cap)`.  (The raw result may strictly exceed the cap,
as the counterexample shows, so equality with `min(numCompletions, cap)`
only holds after capping the result as well; and a fully assigned
inconsistent grid is counted as one completion, so consistency of the
input is required.) -/
theorem C2_count_min (b : Board) (limit : Nat) (hrange : inRange b)
    (hcons : Consistent b) (hlim : 1 ≤ limit) :
    min (count_solutions b limit).1 limit = min (numCompletions b) limit ∧
      (count_solutions b limit).1 ≤ numCompletions b := by
  have hnz : numZeros b < 82 := lt_of_le_of_lt (numZeros_le b) (by omega)
  have hlen := countAux_len 82 limit b hnz hlim hcons hrange
  have heq := numCompletions_eq_length hcons hrange
  unfold count_solutions
  rw [heq]
  obtain ⟨h1, h2⟩ := hlen
  constructor
  · rcases h2 with h | h
    · have : limit ≤ (allSols 82 b).length := le_trans h h1
      omega
    · omega
  · omega

/-- C2 witness: the amended claim instantiated at the canonical solved
grid with the default cap 2. -/
theorem C2_witness :
    inRange baseGrid ∧ Consistent baseGrid ∧ 1 ≤ 2 ∧
      (min (count_solutions baseGrid 2).1 2 = min (numCompletions baseGrid) 2 ∧
        (count_solutions baseGrid 2).1 ≤ numCompletions baseGrid) :=
  ⟨by decide, by decide, by decide,
    C2_count_min baseGrid 2 (by decide) (by decide) (by decide)⟩

/-- C3: for every solution grid `s` (fully assigned digits satisfying the
full-grid invariant), every target hole count and every permutation of the
81 cells, the puzzle returned by `make_puzzle` has
`count_solutions(p, 2) = 1` and agrees with `s` on every nonzero cell. -/
theorem C3_make_puzzle_spec (s : Board) (hs19 : inRange19 s)
    (_hsv : ValidFull s) (holes : Nat) (cells : List (Fin 9 × Fin 9))
    (_hperm : cells.Perm allCellsL) :
    (count_solutions (make_puzzle s holes cells) 2).1 = 1 ∧
      ∀ r c, make_puzzle s holes cells r c ≠ 0 →
        make_puzzle s holes cells r c = s r c := by
  have hf : Filled s := fun r c => by have := (hs19 r c).1; omega
  have hcount : (count_solutions s 2).1 = 1 := by
    rw [count_filled hf 2]
  unfold make_puzzle
  exact carveLoop_spec s cells holes 0 s hcount (fun _ _ _ => rfl)

/-- C3 witness: carving the canonical solved grid with the identity cell
order and 40 holes. -/
theorem C3_witness :
    inRange19 baseGrid ∧ ValidFull baseGrid ∧ allCellsL.Perm allCellsL ∧
      ((count_solutions (make_puzzle baseGrid 40 allCellsL) 2).1 = 1 ∧
        ∀ r c, make_puzzle baseGrid 40 allCellsL r c ≠ 0 →
          make_puzzle baseGrid 40 allCellsL r c = baseGrid r c) :=
  ⟨by decide, by decide, List.Perm.refl _,
    C3_make_puzzle_spec baseGrid (by decide) (by decide) 40 allCellsL
      (List.Perm.refl _)⟩

/-- C5: `is_safe(grid, row, col, value)` returns false exactly when the
value already appears somewhere in the row, somewhere in the column, or
somewhere in the 3x3 box containing the cell (and true otherwise).  The
embedding of `is_safe` is a pure function of the grid, which reflects that
the call does not modify the grid. -/
theorem C5_is_safe_spec : ∀ (b : Board) (row col : Fin 9) (num : Nat),
    is_safe b row col num = false ↔
      (∃ c', b row c' = num) ∨ (∃ r', b r' col = num) ∨
        ∃ r' c' : Fin 9, r'.val / 3 = row.val / 3 ∧
          c'.val / 3 = col.val / 3 ∧ b r' c' = num :=
  fun b row col num => is_safe_false_iff b row col num

/-- C6 counterexample: the all-ones grid is a grid of integers in [0,9]
with no valid completion, yet `solve_backtracking` returns true on it. -/
theorem C6_counterexample :
    (¬ ∃ F : Board, IsCompletion allOnes F) ∧
      (solve_backtracking allOnes).1 = true :=
  ⟨allOnes_no_completion, by decide⟩

/-- C6 (amended): for every 9x9 grid of integers in [0,9] whose placed
values are consistent and which has no valid completion,
`solve_backtracking` returns false and the final grid equals the input
grid cell for cell.  (Consistency is required: a fully assigned grid with
duplicates has no valid completion but makes the solver return true, as
the counterexample shows.) -/
theorem C6_unsolvable_spec (b : Board) (hrange : inRange b)
    (hcons : Consistent b) (hnone : ¬ ∃ F, IsCompletion b F) :
    solve_backtracking b = (false, b) := by
  cases hres : (solve_backtracking b).1 with
  | true =>
    obtain ⟨hcomp, _⟩ := (solve_main b hcons hrange).1 hres
    exact absurd ⟨_, hcomp⟩ hnone
  | false =>
    have hrest : (solve_backtracking b).2 = b := solveAux_restore 82 b hres
    exact Prod.ext hres hrest

/-- C6 witness: a consistent partial grid whose cell (0,3) sees 1,2,3 in
its row and 4..9 in its column, hence has no completion. -/
theorem C6_witness :
    inRange unsolvableGrid ∧ Consistent unsolvableGrid ∧
      (¬ ∃ F, IsCompletion unsolvableGrid F) ∧
      solve_backtracking unsolvableGrid = (false, unsolvableGrid) :=
  ⟨by decide, by decide, unsolvableGrid_no_completion,
    C6_unsolvable_spec unsolvableGrid (by decide) (by decide)
      unsolvableGrid_no_completion⟩

/-- C7: `solve_backtracking` is deterministic (equal inputs yield equal
outputs), and on every grid admitting a valid completion it succeeds and
writes the lexicographically-first valid completion under row-major cell
order: the result is a completion that is lexicographically at most every
other completion. -/
theorem C7_solve_lex_first (b : Board) (hex : ∃ F, IsCompletion b F) :
    (solve_backtracking b).1 = true ∧
      IsCompletion b (solve_backtracking b).2 ∧
      (∀ G, IsCompletion b G → BoardLe (solve_backtracking b).2 G) ∧
      ∀ b' : Board, b' = b → solve_backtracking b' = solve_backtracking b := by
  obtain ⟨F, hF⟩ := hex
  obtain ⟨hcons, hrange⟩ := completion_consistent hF
  cases hres : (solve_backtracking b).1 with
  | false => exact absurd hF ((solve_main b hcons hrange).2 hres F)
  | true =>
    obtain ⟨hcomp, hmin⟩ := (solve_main b hcons hrange).1 hres
    exact ⟨rfl, hcomp, hmin, fun b' hb' => by rw [hb']⟩

/-- C7 witness: the canonical solved grid is its own unique completion. -/
theorem C7_witness :
    (∃ F, IsCompletion baseGrid F) ∧
      ((solve_backtracking baseGrid).1 = true ∧
        IsCompletion baseGrid (solve_backtracking baseGrid).2 ∧
        (∀ G, IsCompletion baseGrid G →
          BoardLe (solve_backtracking baseGrid).2 G) ∧
        ∀ b' : Board, b' = baseGrid →
          solve_backtracking b' = solve_backtracking baseGrid) :=
  ⟨⟨baseGrid, by decide⟩,
    C7_solve_lex_first baseGrid ⟨baseGrid, by decide⟩⟩

/-- C8: for every 9x9 grid of integers in [0,9] and every cap at least 1,
`count_solutions` leaves the grid exactly as it was passed in: every
tentative assignment made during counting is undone. -/
theorem C8_count_restores (b : Board) (limit : Nat) (_hrange : inRange b)
    (_hlim : 1 ≤ limit) : (count_solutions b limit).2 = b :=
  countAux_restore 82 limit b

/-- C8 witness: counting on the canonical solved grid with cap 2. -/
theorem C8_witness :
    inRange baseGrid ∧ 1 ≤ 2 ∧ (count_solutions baseGrid 2).2 = baseGrid :=
  ⟨by decide, by decide, C8_count_restores baseGrid 2 (by decide) (by decide)⟩

/-- C9: `find_empty` returns the first cell holding 0 in row-major order
(rows 0..8 outer, columns 0..8 within a row), and returns none exactly
when the grid has no zero cell; the embedding is a pure function of the
grid, reflecting that the grid is not modified. -/
theorem C9_find_empty_spec : ∀ (b : Board) (r c : Fin 9),
    (find_empty b = some (r, c) ↔ b r c = 0 ∧
      ∀ r' c' : Fin 9, (r'.val < r.val ∨ (r' = r ∧ c'.val < c.val)) →
        b r' c' ≠ 0) ∧
    (find_empty b = none ↔ ∀ r' c' : Fin 9, b r' c' ≠ 0) := by
  intro b r c
  constructor
  · rw [find_empty_some_iff]
    constructor
    · rintro ⟨hb, hfirst⟩
      refine ⟨hb, fun r' c' hlt => hfirst (r', c') ?_⟩
      unfold cellIdx; dsimp only
      have hc' := c'.isLt; have hc := c.isLt
      rcases hlt with h | ⟨h1, h2⟩
      · omega
      · have he : r'.val = r.val := congrArg Fin.val h1
        omega
    · rintro ⟨hb, hfirst⟩
      refine ⟨hb, fun q hq => ?_⟩
      obtain ⟨q1, q2⟩ := q
      apply hfirst q1 q2
      unfold cellIdx at hq; dsimp only at hq
      have h1 := q2.isLt; have h2 := c.isLt
      by_cases heq : q1.val = r.val
      · exact Or.inr ⟨Fin.ext heq, by omega⟩
      · exact Or.inl (by omega)
  · rw [find_empty_none_iff]

/-- C10: on every fully assigned grid, whether or not it satisfies the
invariant, `solve_backtracking` returns true without mutating any cell,
and `count_solutions` returns 1 (also without mutation): neither function
validates the already-placed values. -/
theorem C10_full_no_validation (b : Board) (hf : Filled b) :
    solve_backtracking b = (true, b) ∧
      ∀ limit, (count_solutions b limit).1 = 1 ∧
        (count_solutions b limit).2 = b := by
  refine ⟨solve_filled hf, fun limit => ?_⟩
  rw [count_filled hf limit]
  exact ⟨rfl, rfl⟩

/-- C10 witness: the all-ones grid, fully assigned but invalid. -/
theorem C10_witness :
    Filled allOnes ∧
      (solve_backtracking allOnes = (true, allOnes) ∧
        ∀ limit, (count_solutions allOnes limit).1 = 1 ∧
          (count_solutions allOnes limit).2 = allOnes) :=
  ⟨by decide, C10_full_no_validation allOnes (by decide)⟩
